import Mathlib

/-
Verification of the PageRank calculator (src/pagerank/pagerank.py) against
its design document. The Python code is shallowly embedded: dictionaries
become association lists in key insertion order (Python dicts preserve
insertion order), float arithmetic becomes exact rational arithmetic, and
Python exceptions become an explicit error monad. Randomness is abstracted
by an oracle of natural-number draws.
-/

deriving instance DecidableEq for Except

namespace PageRank

/-- Pages are the opaque string identifiers that the crawler uses as corpus keys. -/
abbrev Page := String

/-- A corpus as built by crawl: an association list from a page to the list of
pages it links to, in key insertion order. -/
abbrev Graph := List (Page × List Page)

/-- A probability or rank mapping over pages, in key insertion order. -/
abbrev Dist := List (Page × ℚ)

/-- Python exceptions that the embedded code can raise. -/
inductive Err where
  | zeroDivisionError
  | keyError
  | indexError
  deriving DecidableEq, Repr

/-- Keys of a corpus dictionary, in order (corpus.keys() in the source). -/
def keys (corpus : Graph) : List Page :=
  corpus.map Prod.fst

/-- Dictionary lookup: the value stored at the first matching key. -/
def lookupKey {α : Type} (k : Page) : List (Page × α) → Option α
  | [] => none
  | pr :: rest => if pr.1 = k then some pr.2 else lookupKey k rest

/-- Python division. It raises ZeroDivisionError on a zero divisor and is the
exact-arithmetic model of each division site of the source. -/
def pyDiv (a b : ℚ) : Except Err ℚ :=
  if b = 0 then Except.error Err.zeroDivisionError else Except.ok (a / b)

/-- Dictionary update probability[k] += v from the link loop of
transition_model. The source only runs it for links that crawl kept, and
crawl keeps only links that are corpus keys, so the entry exists. -/
def addProb (dist : Dist) (k : Page) (v : ℚ) : Dist :=
  dist.map fun pr => if pr.1 = k then (pr.1, pr.2 + v) else pr

/-- Embedding of transition_model from src/pagerank/pagerank.py. The lookup
corpus[page] raises KeyError when page is not a key; every division of the
source goes through pyDiv at the point where the source performs it (inside
the loops, so an empty loop performs no division). The dangling branch of the
source overwrites every entry of the dictionary with 1 / len(corpus); the
embedding rebuilds the dictionary with those values, same keys, same order. -/
def transition_model (corpus : Graph) (page : Page) (d : ℚ) : Except Err Dist :=
  match lookupKey page corpus with
  | none => Except.error Err.keyError
  | some links => do
    let anti := 1 - d
    let probability ← corpus.foldlM (fun dist pr => do
      let v ← pyDiv anti corpus.length
      Except.ok (dist ++ [(pr.1, v)])) []
    if links.length = 0 then
      corpus.foldlM (fun dist pr => do
        let v ← pyDiv 1 corpus.length
        Except.ok (dist ++ [(pr.1, v)])) []
    else
      links.foldlM (fun dist link => do
        let v ← pyDiv d links.length
        Except.ok (addProb dist link v)) probability

/-- Sum of the values of a distribution dictionary. -/
def sumValues (dist : Dist) : ℚ :=
  (dist.map Prod.snd).sum

/-- Data-model invariants of a crawled Graph (design document, section 3):
distinct keys, duplicate-free outbound sets (set semantics), no self links,
and links only to pages that are corpus keys. -/
def WF (corpus : Graph) : Prop :=
  (keys corpus).Nodup ∧
    ∀ pr ∈ corpus, pr.2.Nodup ∧ pr.1 ∉ pr.2 ∧ ∀ l ∈ pr.2, l ∈ keys corpus

instance (corpus : Graph) : Decidable (WF corpus) := by
  unfold WF
  infer_instance

/-- Model of random.choice and numpy.random.choice over a list of outcomes:
which outcome is drawn is abstracted by an oracle natural number i, reduced
modulo the length of the list. Like random.choice, an empty outcome list
raises IndexError. -/
def pyChoice (l : List Page) (i : ℕ) : Except Err Page :=
  if l.isEmpty then Except.error Err.indexError
  else Except.ok (l.getD (i % l.length) default)

/-- Loop body of sample_pagerank, run steps times: from the current page,
compute transition_model and draw the next page from the keys of the returned
distribution (numpy.random.choice over list(probability.keys())); returns the
drawn pages in order. The oracle pick supplies the draw of step i. -/
def walkSteps (corpus : Graph) (d : ℚ) (pick : ℕ → ℕ) :
    ℕ → ℕ → Page → Except Err (List Page)
  | 0, _, _ => Except.ok []
  | steps + 1, i, cur => do
    let probability ← transition_model corpus cur d
    let nextPage ← pyChoice (probability.map Prod.fst) (pick i)
    let rest ← walkSteps corpus d pick steps (i + 1) nextPage
    Except.ok (nextPage :: rest)

/-- Visit record of sample_pagerank: the initial page drawn uniformly by
random.choice from the corpus keys, followed by the pages drawn in the
range(n) loop. Python range(n) runs n.toNat times: it is empty for n < 1. -/
def sampleRecord (corpus : Graph) (d : ℚ) (n : ℤ) (pick : ℕ → ℕ) :
    Except Err (List Page) :=
  match pyChoice (keys corpus) (pick 0) with
  | Except.error e => Except.error e
  | Except.ok first => do
    let rest ← walkSteps corpus d pick n.toNat 1 first
    Except.ok (first :: rest)

/-- Embedding of sample_pagerank from src/pagerank/pagerank.py: build the
visit record, then give every corpus key the rank
samples.count(page) / len(samples). -/
def sample_pagerank (corpus : Graph) (d : ℚ) (n : ℤ) (pick : ℕ → ℕ) :
    Except Err Dist := do
  let samples ← sampleRecord corpus d n pick
  Except.ok (corpus.map fun pr =>
    (pr.1, (samples.count pr.1 : ℚ) / (samples.length : ℚ)))

/-- Dictionary update corpus[k] = v: the in-place rewrite
corpus[link] = corpus.keys() that iterate_pagerank performs. -/
def setEntry (corpus : Graph) (k : Page) (v : List Page) : Graph :=
  corpus.map fun pr => if pr.1 = k then (pr.1, v) else pr

/-- Dictionary update pageRank[page] = v inside the convergence pass. -/
def setRank (dist : Dist) (k : Page) (v : ℚ) : Dist :=
  dist.map fun pr => if pr.1 = k then (pr.1, v) else pr

/-- Inner loop of iterate_pagerank over link in corpus.keys(): when the entry
of link is empty it is rewritten in place to the full key view, then, when
page is in corpus[link], pageRank[link] / len(corpus[link]) is accumulated
into sumAlg. Returns the corpus as left by the rewrites together with sumAlg.
Every link is a corpus key (the loop iterates over corpus.keys()), so the
lookups cannot raise; pageRank always holds every corpus key. -/
def innerLoop (allKeys : List Page) (pageRank : Dist) (page : Page) :
    List Page → Graph → ℚ → Except Err (Graph × ℚ)
  | [], corpus, sumAlg => Except.ok (corpus, sumAlg)
  | link :: rest, corpus, sumAlg => do
    let corpus1 := if (lookupKey link corpus).getD [] = []
      then setEntry corpus link allKeys else corpus
    let links := (lookupKey link corpus1).getD []
    if page ∈ links then do
      let iterative ← pyDiv ((lookupKey link pageRank).getD 0) links.length
      innerLoop allKeys pageRank page rest corpus1 (sumAlg + iterative)
    else
      innerLoop allKeys pageRank page rest corpus1 sumAlg

/-- Convergence pass of iterate_pagerank, for page in pageRank: the new rank
algConst + d * sumAlg of each page is written into pageRank immediately, so
pages later in key order read values already updated in the same pass. -/
def passLoop (allKeys : List Page) (d algConst : ℚ) :
    List Page → Graph → Dist → Except Err (Graph × Dist)
  | [], corpus, pageRank => Except.ok (corpus, pageRank)
  | page :: rest, corpus, pageRank => do
    let res ← innerLoop allKeys pageRank page allKeys corpus 0
    passLoop allKeys d algConst rest res.1
      (setRank pageRank page (algConst + d * res.2))

/-- Convergence measure of the source: the maximum over pages of
abs(prevRank[page] - pageRank[page]), folded from the start value -10000. -/
def maxChange (prevRank pageRank : Dist) : ℚ :=
  pageRank.foldl
    (fun m pr =>
      if |(lookupKey pr.1 prevRank).getD 0 - (lookupKey pr.1 pageRank).getD 0| > m
      then |(lookupKey pr.1 prevRank).getD 0 - (lookupKey pr.1 pageRank).getD 0|
      else m)
    (-10000)

/-- While-True loop of iterate_pagerank, with explicit fuel. The source loop
has no iteration cap: its only exit is the test max_change < 0.001 after a
pass, so the embedding needs fuel to be total, and returns none for a run of
the loop that has not stopped within the given number of passes. -/
def iterLoop (allKeys : List Page) (d algConst : ℚ) :
    ℕ → Graph → Dist → Except Err (Option (Graph × Dist))
  | 0, _, _ => Except.ok none
  | fuel + 1, corpus, pageRank => do
    let res ← passLoop allKeys d algConst allKeys corpus pageRank
    if maxChange pageRank res.2 < 1 / 1000 then Except.ok (some res)
    else iterLoop allKeys d algConst fuel res.1 res.2

/-- Embedding of iterate_pagerank from src/pagerank/pagerank.py. The rank
dictionary starts at 1 / len(corpus) per key (a division performed inside the
loop over keys, hence skipped on an empty corpus), then
algConst = (1 - d) / n divides by n = len(corpus) unconditionally. The Python
function mutates the corpus argument in place; the embedding returns, next to
the rank dictionary, the corpus as the caller observes it after the call. -/
def iterate_pagerank (fuel : ℕ) (corpus : Graph) (d : ℚ) :
    Except Err (Option (Dist × Graph)) := do
  let pageRank := corpus.map fun pr => (pr.1, 1 / (corpus.length : ℚ))
  let algConst ← pyDiv (1 - d) corpus.length
  let res ← iterLoop (keys corpus) d algConst fuel corpus pageRank
  match res with
  | none => Except.ok none
  | some final => Except.ok (some (final.2, final.1))

/-- Specification-side effective outbound view (design document, sections 3
and 4.3): the outbound set of a page, except that a dangling page is treated
as linking to every page of the graph; derived without touching the Graph. -/
def specEffectiveOut (corpus : Graph) (q : Page) : List Page :=
  let l := (lookupKey q corpus).getD []
  if l = [] then keys corpus else l

/-- Specification-side iteration step (design document, section 4.3): for
every page simultaneously, reading only the previous vector, the new rank is
(1 - d) / N + d * sum over pages q whose effective outbound set holds the
page of rank(q) / len(effectiveOut(q)). Stated from the words of the
specification, to be compared against the pass of the source. -/
def specIterStep (corpus : Graph) (d : ℚ) (rank : Dist) : Dist :=
  rank.map fun pr =>
    (pr.1, (1 - d) / (corpus.length : ℚ) +
      d * ((keys corpus).map fun q =>
        if pr.1 ∈ specEffectiveOut corpus q
        then ((lookupKey q rank).getD 0) / ((specEffectiveOut corpus q).length : ℚ)
        else 0).sum)

theorem bindOk {α β : Type} (a : α) (f : α → Except Err β) :
    (Except.ok a >>= f) = f a := rfl

theorem pyDiv_ok (a : ℚ) {b : ℚ} (hb : b ≠ 0) : pyDiv a b = Except.ok (a / b) := by
  simp [pyDiv, hb]

theorem lookupKey_mem {α : Type} {k : Page} {v : α} :
    ∀ {l : List (Page × α)}, lookupKey k l = some v → (k, v) ∈ l := by
  intro l
  induction l with
  | nil => intro h; simp [lookupKey] at h
  | cons pr rest ih =>
    intro h
    rw [lookupKey] at h
    by_cases hk : pr.1 = k
    · rw [if_pos hk] at h
      injection h with h
      have hpr : pr = (k, v) := by
        rw [← hk, ← h]
      rw [← hpr]
      exact List.mem_cons_self _ _
    · rw [if_neg hk] at h
      exact List.mem_cons_of_mem _ (ih h)

theorem exists_lookupKey {α : Type} {k : Page} :
    ∀ {l : List (Page × α)}, k ∈ l.map Prod.fst → ∃ v, lookupKey k l = some v := by
  intro l
  induction l with
  | nil => intro h; simp at h
  | cons pr rest ih =>
    intro h
    by_cases hk : pr.1 = k
    · exact ⟨pr.2, by rw [lookupKey, if_pos hk]⟩
    · rw [List.map_cons, List.mem_cons] at h
      rcases h with h | h
      · exact absurd h.symm hk
      · obtain ⟨v, hv⟩ := ih h
        exact ⟨v, by rw [lookupKey, if_neg hk, hv]⟩

theorem lookupKey_mapValue {β : Type} (g : Page → ℚ) :
    ∀ (l : List (Page × β)) {k : Page}, k ∈ l.map Prod.fst →
      lookupKey k (l.map fun pr => (pr.1, g pr.1)) = some (g k) := by
  intro l
  induction l with
  | nil => intro k h; simp at h
  | cons pr rest ih =>
    intro k h
    rw [List.map_cons, lookupKey]
    by_cases hk : pr.1 = k
    · rw [if_pos hk, hk]
    · rw [if_neg hk]
      rw [List.map_cons, List.mem_cons] at h
      rcases h with h | h
      · exact absurd h.symm hk
      · exact ih h

theorem keys_mapValue {β : Type} (g : Page → ℚ) (l : List (Page × β)) :
    (l.map fun pr => (pr.1, g pr.1)).map Prod.fst = l.map Prod.fst := by
  induction l with
  | nil => rfl
  | cons pr rest ih => simp [ih]

theorem sumValues_nil : sumValues [] = 0 := rfl

theorem sumValues_cons (pr : Page × ℚ) (rest : Dist) :
    sumValues (pr :: rest) = pr.2 + sumValues rest := by
  simp [sumValues]

theorem sumValues_mapValue {β : Type} (g : Page → ℚ) (l : List (Page × β)) :
    sumValues (l.map fun pr => (pr.1, g pr.1)) = ((l.map Prod.fst).map g).sum := by
  induction l with
  | nil => rfl
  | cons pr rest ih => simp [sumValues_cons, ih]

theorem sum_const_q (c : ℚ) : ∀ ks : List Page, ((ks.map fun _ => c).sum) = ks.length * c
  | [] => by simp
  | k :: ks => by
    simp [sum_const_q c ks]
    ring

theorem addProb_cons (pr : Page × ℚ) (rest : Dist) (k : Page) (v : ℚ) :
    addProb (pr :: rest) k v
      = (if pr.1 = k then (pr.1, pr.2 + v) else pr) :: addProb rest k v := rfl

theorem addProb_keys (dist : Dist) (k : Page) (v : ℚ) :
    (addProb dist k v).map Prod.fst = dist.map Prod.fst := by
  induction dist with
  | nil => rfl
  | cons pr rest ih =>
    rw [addProb_cons]
    by_cases h : pr.1 = k
    · simp [if_pos h, ih]
    · simp [if_neg h, ih]

theorem addProb_of_not_mem (v : ℚ) :
    ∀ {dist : Dist} {k : Page}, k ∉ dist.map Prod.fst → addProb dist k v = dist := by
  intro dist
  induction dist with
  | nil => intro k _; rfl
  | cons pr rest ih =>
    intro k h
    rw [List.map_cons, List.mem_cons] at h
    push_neg at h
    rw [addProb_cons, if_neg (fun hc => h.1 hc.symm), ih h.2]

theorem sumValues_addProb (v : ℚ) {k : Page} :
    ∀ {dist : Dist}, k ∈ dist.map Prod.fst → (dist.map Prod.fst).Nodup →
      sumValues (addProb dist k v) = sumValues dist + v := by
  intro dist
  induction dist with
  | nil => intro hmem _; simp at hmem
  | cons pr rest ih =>
    intro hmem hnd
    rw [List.map_cons, List.nodup_cons] at hnd
    rw [addProb_cons]
    by_cases h : pr.1 = k
    · have hk : k ∉ rest.map Prod.fst := by rw [← h]; exact hnd.1
      rw [if_pos h, addProb_of_not_mem v hk, sumValues_cons, sumValues_cons]
      ring
    · rw [List.map_cons, List.mem_cons] at hmem
      rcases hmem with hmem | hmem
      · exact absurd hmem.symm h
      · rw [if_neg h, sumValues_cons, sumValues_cons, ih hmem hnd.2]
        ring

theorem foldl_addProb_keys (w : ℚ) :
    ∀ (ls : List Page) (acc : Dist),
      ((ls.foldl (fun dist link => addProb dist link w) acc).map Prod.fst)
        = acc.map Prod.fst
  | [], acc => rfl
  | l :: ls, acc => by
    rw [List.foldl_cons, foldl_addProb_keys w ls, addProb_keys]

theorem sumValues_foldl_addProb (w : ℚ) :
    ∀ (ls : List Page) (acc : Dist), (∀ x ∈ ls, x ∈ acc.map Prod.fst) →
      (acc.map Prod.fst).Nodup →
      sumValues (ls.foldl (fun dist link => addProb dist link w) acc)
        = sumValues acc + ls.length * w
  | [], acc, _, _ => by simp
  | l :: ls, acc, hsub, hnd => by
    rw [List.foldl_cons]
    rw [sumValues_foldl_addProb w ls (addProb acc l w)
      (fun x hx => by rw [addProb_keys]; exact hsub x (List.mem_cons_of_mem _ hx))
      (by rw [addProb_keys]; exact hnd)]
    rw [sumValues_addProb w (hsub l (List.mem_cons_self _ _)) hnd, List.length_cons]
    push_cast
    ring

theorem foldlM_entry_ok_aux {β : Type} (w : ℚ) :
    ∀ (l : List (Page × β)) (acc : Dist),
      (List.foldlM (fun dist pr => Except.ok (dist ++ [(pr.1, w)])) acc l
          : Except Err Dist)
        = Except.ok (acc ++ l.map fun pr => (pr.1, w))
  | [], acc => by
    simp only [List.foldlM, List.map_nil, List.append_nil]
    rfl
  | pr :: rest, acc => by
    simp only [List.foldlM_cons, bindOk]
    rw [foldlM_entry_ok_aux w rest (acc ++ [(pr.1, w)])]
    simp

theorem foldlM_entry_ok {β : Type} (q c : ℚ) (hc : c ≠ 0)
    (l : List (Page × β)) (acc : Dist) :
    (List.foldlM (fun dist pr => do
      let v ← pyDiv q c
      Except.ok (dist ++ [(pr.1, v)])) acc l : Except Err Dist)
      = Except.ok (acc ++ l.map fun pr => (pr.1, q / c)) := by
  simp only [pyDiv_ok q hc, bindOk]
  exact foldlM_entry_ok_aux (q / c) l acc

theorem foldlM_addProb_ok_aux (w : ℚ) :
    ∀ (ls : List Page) (acc : Dist),
      (List.foldlM (fun dist link => Except.ok (addProb dist link w)) acc ls
          : Except Err Dist)
        = Except.ok (ls.foldl (fun dist link => addProb dist link w) acc)
  | [], acc => by
    simp only [List.foldlM, List.foldl_nil]
    rfl
  | l :: ls, acc => by
    simp only [List.foldlM_cons, bindOk]
    rw [foldlM_addProb_ok_aux w ls (addProb acc l w), List.foldl_cons]

theorem foldlM_addProb_ok (q c : ℚ) (hc : c ≠ 0) (ls : List Page) (acc : Dist) :
    (List.foldlM (fun dist link => do
      let v ← pyDiv q c
      Except.ok (addProb dist link v)) acc ls : Except Err Dist)
      = Except.ok (ls.foldl (fun dist link => addProb dist link (q / c)) acc) := by
  simp only [pyDiv_ok q hc, bindOk]
  exact foldlM_addProb_ok_aux (q / c) ls acc

theorem length_cast_ne_zero {corpus : Graph} (hne : corpus ≠ []) :
    ((corpus.length : ℕ) : ℚ) ≠ 0 := by
  have h0 : corpus.length ≠ 0 := fun h => hne (List.length_eq_zero.mp h)
  exact_mod_cast h0

theorem transition_model_dangling {corpus : Graph} (page : Page) (d : ℚ)
    (hne : corpus ≠ []) (hl : lookupKey page corpus = some []) :
    transition_model corpus page d
      = Except.ok (corpus.map fun pr => (pr.1, 1 / (corpus.length : ℚ))) := by
  have hc := length_cast_ne_zero hne
  unfold transition_model
  rw [hl]
  simp only [foldlM_entry_ok _ _ hc, bindOk]
  simp

theorem transition_model_followed {corpus : Graph} (page : Page) (d : ℚ)
    {links : List Page} (hne : corpus ≠ []) (hl : lookupKey page corpus = some links)
    (hnil : links ≠ []) :
    transition_model corpus page d
      = Except.ok (links.foldl
          (fun dist link => addProb dist link (d / (links.length : ℚ)))
          (corpus.map fun pr => (pr.1, (1 - d) / (corpus.length : ℚ)))) := by
  have hc := length_cast_ne_zero hne
  have hL : ((links.length : ℕ) : ℚ) ≠ 0 := by
    have h0 : links.length ≠ 0 := fun h => hnil (List.length_eq_zero.mp h)
    exact_mod_cast h0
  have hL0 : ¬ links.length = 0 := fun h => hnil (List.length_eq_zero.mp h)
  unfold transition_model
  rw [hl]
  simp only [foldlM_entry_ok _ _ hc, bindOk, if_neg hL0,
    foldlM_addProb_ok _ _ hL, List.nil_append]

theorem transition_model_total {corpus : Graph} {page : Page} (d : ℚ)
    (hne : corpus ≠ []) (hmem : page ∈ keys corpus) :
    ∃ dist, transition_model corpus page d = Except.ok dist ∧
      dist.map Prod.fst = keys corpus := by
  obtain ⟨links, hl⟩ := exists_lookupKey hmem
  by_cases hnil : links = []
  · subst hnil
    refine ⟨_, transition_model_dangling page d hne hl, ?_⟩
    exact keys_mapValue (fun _ => 1 / (corpus.length : ℚ)) corpus
  · refine ⟨_, transition_model_followed page d hne hl hnil, ?_⟩
    rw [foldl_addProb_keys,
      keys_mapValue (fun _ => (1 - d) / (corpus.length : ℚ)) corpus]
    rfl

/-- C9: for every non-empty graph and every page that is a key of the graph,
transition_model performs no division by zero: every division site of the
source is modelled by pyDiv, which raises ZeroDivisionError on a zero
divisor, and the call nevertheless returns a distribution — the dangling
check runs before any division by the size of the outbound set, so d divided
by the outbound size is only computed when that size is at least one. -/
theorem transition_model_no_div_by_zero (corpus : Graph) (page : Page) (d : ℚ)
    (hne : corpus ≠ []) (hmem : page ∈ keys corpus) :
    ∃ dist, transition_model corpus page d = Except.ok dist := by
  obtain ⟨dist, hdist, _⟩ := transition_model_total d hne hmem
  exact ⟨dist, hdist⟩

theorem transition_model_no_div_by_zero_witness :
    ∃ dist, transition_model
      [(("a" : Page), [("b" : Page)]), (("b" : Page), [])] ("a") (17/20)
      = Except.ok dist :=
  transition_model_no_div_by_zero _ _ _ (by decide) (by decide)

/-- C5: for every non-empty graph, every damping factor, and every dangling
page (page whose outbound set is empty), transition_model returns the exactly
uniform distribution: its keys are the corpus keys and every page is assigned
probability 1 / N where N is the number of pages. -/
theorem transition_model_dangling_uniform (corpus : Graph) (page : Page) (d : ℚ)
    (hne : corpus ≠ []) (hl : lookupKey page corpus = some []) :
    ∃ dist, transition_model corpus page d = Except.ok dist ∧
      dist.map Prod.fst = keys corpus ∧
      ∀ q ∈ keys corpus, lookupKey q dist = some (1 / (corpus.length : ℚ)) := by
  refine ⟨_, transition_model_dangling page d hne hl,
    keys_mapValue (fun _ => 1 / (corpus.length : ℚ)) corpus, ?_⟩
  intro q hq
  exact lookupKey_mapValue (fun _ => 1 / (corpus.length : ℚ)) corpus hq

theorem transition_model_dangling_uniform_witness :
    ∃ dist, transition_model
      [(("a" : Page), [("b" : Page)]), (("b" : Page), [])] ("b") (17/20)
      = Except.ok dist ∧
      dist.map Prod.fst = keys [(("a" : Page), [("b" : Page)]), (("b" : Page), [])] ∧
      ∀ q ∈ keys [(("a" : Page), [("b" : Page)]), (("b" : Page), [])],
        lookupKey q dist = some (1 / 2) := by
  have h := transition_model_dangling_uniform
    [(("a" : Page), [("b" : Page)]), (("b" : Page), [])] ("b") (17/20)
    (by decide) (by decide)
  simpa using h

/-- C4: for every non-empty well-formed graph, every page of the graph, and
every damping factor in the closed interval from 0 to 1, the values of the
distribution returned by transition_model sum to exactly 1 in exact rational
arithmetic (hence within every tolerance, in particular 1e-6). -/
theorem transition_model_sums_to_one (corpus : Graph) (page : Page) (d : ℚ)
    (hwf : WF corpus) (hne : corpus ≠ []) (hmem : page ∈ keys corpus)
    (_hd0 : 0 ≤ d) (_hd1 : d ≤ 1) :
    ∃ dist, transition_model corpus page d = Except.ok dist ∧
      sumValues dist = 1 := by
  have hc := length_cast_ne_zero hne
  obtain ⟨links, hl⟩ := exists_lookupKey hmem
  by_cases hnil : links = []
  · subst hnil
    refine ⟨_, transition_model_dangling page d hne hl, ?_⟩
    rw [sumValues_mapValue (fun _ => 1 / (corpus.length : ℚ)) corpus, sum_const_q]
    field_simp
  · refine ⟨_, transition_model_followed page d hne hl hnil, ?_⟩
    have hpair : (page, links) ∈ corpus := lookupKey_mem hl
    have hsub : ∀ x ∈ links,
        x ∈ (corpus.map fun pr => (pr.1, (1 - d) / (corpus.length : ℚ))).map Prod.fst := by
      intro x hx
      rw [keys_mapValue (fun _ => (1 - d) / (corpus.length : ℚ)) corpus]
      exact (hwf.2 (page, links) hpair).2.2 x hx
    have hnd :
        ((corpus.map fun pr => (pr.1, (1 - d) / (corpus.length : ℚ))).map Prod.fst).Nodup := by
      rw [keys_mapValue (fun _ => (1 - d) / (corpus.length : ℚ)) corpus]
      exact hwf.1
    have hL : ((links.length : ℕ) : ℚ) ≠ 0 := by
      have h0 : links.length ≠ 0 := fun h => hnil (List.length_eq_zero.mp h)
      exact_mod_cast h0
    rw [sumValues_foldl_addProb _ _ _ hsub hnd,
      sumValues_mapValue (fun _ => (1 - d) / (corpus.length : ℚ)) corpus, sum_const_q]
    field_simp

theorem transition_model_sums_to_one_witness :
    ∃ dist, transition_model
      [(("a" : Page), [("b" : Page)]), (("b" : Page), [])] ("a") (17/20)
      = Except.ok dist ∧ sumValues dist = 1 :=
  transition_model_sums_to_one _ _ _ (by decide) (by decide) (by decide)
    (by norm_num) (by norm_num)

theorem pyChoice_ok {l : List Page} (i : ℕ) (hne : l ≠ []) :
    ∃ x, pyChoice l i = Except.ok x ∧ x ∈ l := by
  have hlen : 0 < l.length := List.length_pos.mpr hne
  have hmod : i % l.length < l.length := Nat.mod_lt _ hlen
  refine ⟨l.getD (i % l.length) default, ?_, ?_⟩
  · simp [pyChoice, hne]
  · rw [List.getD_eq_getElem l default hmod]
    exact List.getElem_mem hmod

theorem keys_ne_nil {corpus : Graph} (hne : corpus ≠ []) : keys corpus ≠ [] := by
  intro h
  exact hne (List.map_eq_nil_iff.mp h)

theorem walkSteps_ok (corpus : Graph) (d : ℚ) (pick : ℕ → ℕ) (hne : corpus ≠ []) :
    ∀ (steps i : ℕ) (cur : Page), cur ∈ keys corpus →
      ∃ rest, walkSteps corpus d pick steps i cur = Except.ok rest ∧
        rest.length = steps ∧ ∀ x ∈ rest, x ∈ keys corpus := by
  intro steps
  induction steps with
  | zero =>
    intro i cur _
    exact ⟨[], rfl, rfl, by simp⟩
  | succ s ih =>
    intro i cur hcur
    obtain ⟨dist, hdist, hkeys⟩ := transition_model_total d hne hcur
    have hkne : dist.map Prod.fst ≠ [] := by
      rw [hkeys]
      exact keys_ne_nil hne
    obtain ⟨nxt, hnxt, hmem⟩ := pyChoice_ok (pick i) hkne
    have hmemk : nxt ∈ keys corpus := by
      rw [← hkeys]
      exact hmem
    obtain ⟨rest, hrest, hlen, hsub⟩ := ih (i + 1) nxt hmemk
    refine ⟨nxt :: rest, ?_, by simp [hlen], ?_⟩
    · simp only [walkSteps, hdist, hnxt, hrest, bindOk]
    · intro x hx
      rcases List.mem_cons.mp hx with h | h
      · rw [h]
        exact hmemk
      · exact hsub x h

theorem sampleRecord_ok (corpus : Graph) (d : ℚ) (n : ℤ) (pick : ℕ → ℕ)
    (hne : corpus ≠ []) :
    ∃ samples, sampleRecord corpus d n pick = Except.ok samples ∧
      samples.length = n.toNat + 1 ∧ ∀ x ∈ samples, x ∈ keys corpus := by
  obtain ⟨first, hfirst, hfm⟩ := pyChoice_ok (pick 0) (keys_ne_nil hne)
  obtain ⟨rest, hrest, hlen, hsub⟩ := walkSteps_ok corpus d pick hne n.toNat 1 first hfm
  refine ⟨first :: rest, ?_, by simp [hlen], ?_⟩
  · simp only [sampleRecord, hfirst, hrest, bindOk]
  · intro x hx
    rcases List.mem_cons.mp hx with h | h
    · rw [h]
      exact hfm
    · exact hsub x h

theorem sample_pagerank_eq (corpus : Graph) (d : ℚ) (n : ℤ) (pick : ℕ → ℕ)
    {samples : List Page} (hs : sampleRecord corpus d n pick = Except.ok samples) :
    sample_pagerank corpus d n pick
      = Except.ok (corpus.map fun pr =>
          (pr.1, (samples.count pr.1 : ℚ) / (samples.length : ℚ))) := by
  simp only [sample_pagerank, hs, bindOk]

theorem sum_map_add_q (ks : List Page) (f g : Page → ℚ) :
    (ks.map fun x => f x + g x).sum = (ks.map f).sum + (ks.map g).sum := by
  induction ks with
  | nil => simp
  | cons k ks ih =>
    simp [ih]
    ring

theorem sum_indicator_zero (a : Page) :
    ∀ ks : List Page, a ∉ ks →
      (ks.map fun p => if p = a then (1 : ℚ) else 0).sum = 0
  | [], _ => rfl
  | k :: ks, h => by
    have h1 : ¬ k = a := by
      intro hk
      exact h (by rw [hk]; exact List.mem_cons_self _ _)
    have h2 : a ∉ ks := fun hk => h (List.mem_cons_of_mem _ hk)
    simp only [List.map_cons, List.sum_cons, if_neg h1,
      sum_indicator_zero a ks h2, add_zero]

theorem sum_indicator_one (a : Page) :
    ∀ ks : List Page, ks.Nodup → a ∈ ks →
      (ks.map fun p => if p = a then (1 : ℚ) else 0).sum = 1
  | [], _, ha => by simp at ha
  | k :: ks, hnd, ha => by
    rw [List.nodup_cons] at hnd
    by_cases hk : k = a
    · have h2 : a ∉ ks := by
        rw [← hk]
        exact hnd.1
      simp only [List.map_cons, List.sum_cons, if_pos hk,
        sum_indicator_zero a ks h2, add_zero]
    · rcases List.mem_cons.mp ha with h | h
      · exact absurd h.symm hk
      · simp only [List.map_cons, List.sum_cons, if_neg hk,
          sum_indicator_one a ks hnd.2 h, zero_add]

theorem sum_counts (ks : List Page) (hnd : ks.Nodup) :
    ∀ samples : List Page, (∀ x ∈ samples, x ∈ ks) →
      (ks.map fun p => ((samples.count p : ℕ) : ℚ)).sum = samples.length := by
  intro samples
  induction samples with
  | nil => intro _; simp
  | cons a s ih =>
    intro hsub
    have hsub2 : ∀ x ∈ s, x ∈ ks := fun x hx => hsub x (List.mem_cons_of_mem _ hx)
    have ha : a ∈ ks := hsub a (List.mem_cons_self _ _)
    have hcast : (fun p => (((a :: s).count p : ℕ) : ℚ))
        = fun p => ((s.count p : ℕ) : ℚ) + if p = a then (1 : ℚ) else 0 := by
      funext p
      rw [List.count_cons]
      by_cases hp : p = a
      · simp [hp]
      · have hp2 : ¬ a = p := fun h => hp h.symm
        simp [hp, hp2]
    rw [hcast, sum_map_add_q, ih hsub2, sum_indicator_one a ks hnd ha]
    simp

theorem sum_map_div (ks : List Page) (f : Page → ℚ) (c : ℚ) :
    (ks.map fun x => f x / c).sum = (ks.map f).sum / c := by
  induction ks with
  | nil => simp
  | cons k ks ih =>
    simp [ih]
    ring

/-- C6: for every non-empty well-formed graph and every sample count n of at
least 1, the Sampling Estimator records exactly n + 1 visits (the initial
uniformly drawn page plus the n drawn transitions), assigns each page the
rank count of the page in the visit record divided by n + 1, and its returned
rank vector sums to exactly 1. -/
theorem sample_pagerank_visit_counts (corpus : Graph) (d : ℚ) (n : ℤ)
    (pick : ℕ → ℕ) (hwf : WF corpus) (hne : corpus ≠ []) (hn : 1 ≤ n) :
    ∃ samples dist,
      sampleRecord corpus d n pick = Except.ok samples ∧
      (samples.length : ℤ) = n + 1 ∧
      sample_pagerank corpus d n pick = Except.ok dist ∧
      (∀ p ∈ keys corpus,
        lookupKey p dist = some ((samples.count p : ℚ) / ((n : ℚ) + 1))) ∧
      sumValues dist = 1 := by
  obtain ⟨samples, hs, hlen, hsub⟩ := sampleRecord_ok corpus d n pick hne
  have hn0 : (0 : ℤ) ≤ n := le_trans zero_le_one hn
  have hlenz : (samples.length : ℤ) = n + 1 := by
    rw [hlen]
    omega
  have hlq : ((samples.length : ℕ) : ℚ) = (n : ℚ) + 1 := by
    have h2 := congrArg (fun z : ℤ => (z : ℚ)) hlenz
    push_cast at h2
    exact h2
  have hl0 : ((samples.length : ℕ) : ℚ) ≠ 0 := by
    rw [hlen]
    exact_mod_cast Nat.succ_ne_zero n.toNat
  refine ⟨samples, _, hs, hlenz, sample_pagerank_eq corpus d n pick hs, ?_, ?_⟩
  · intro p hp
    rw [lookupKey_mapValue
      (fun p => ((samples.count p : ℕ) : ℚ) / (samples.length : ℚ)) corpus hp, hlq]
  · rw [sumValues_mapValue
      (fun p => ((samples.count p : ℕ) : ℚ) / (samples.length : ℚ)) corpus,
      sum_map_div, sum_counts (corpus.map Prod.fst) hwf.1 samples hsub,
      div_self hl0]

theorem sample_pagerank_visit_counts_witness :
    ∃ samples dist,
      sampleRecord [(("a" : Page), [])] (17/20) 1 (fun _ => 0) = Except.ok samples ∧
      (samples.length : ℤ) = 1 + 1 ∧
      sample_pagerank [(("a" : Page), [])] (17/20) 1 (fun _ => 0) = Except.ok dist ∧
      (∀ p ∈ keys [(("a" : Page), [])],
        lookupKey p dist = some ((samples.count p : ℚ) / (((1 : ℤ) : ℚ) + 1))) ∧
      sumValues dist = 1 :=
  sample_pagerank_visit_counts [(("a" : Page), [])] (17/20) 1 (fun _ => 0)
    (by decide) (by decide) (by decide)

/-- C10: for every non-empty graph and every sample count, sample_pagerank
returns a dictionary whose key set is exactly the key set of the graph, in
order, and a page that never appears in the visit record is assigned rank 0
rather than being omitted. -/
theorem sample_pagerank_complete_keys (corpus : Graph) (d : ℚ) (n : ℤ)
    (pick : ℕ → ℕ) (hne : corpus ≠ []) :
    ∃ samples dist,
      sampleRecord corpus d n pick = Except.ok samples ∧
      sample_pagerank corpus d n pick = Except.ok dist ∧
      dist.map Prod.fst = keys corpus ∧
      ∀ p ∈ keys corpus, p ∉ samples → lookupKey p dist = some 0 := by
  obtain ⟨samples, hs, hlen, hsub⟩ := sampleRecord_ok corpus d n pick hne
  refine ⟨samples, _, hs, sample_pagerank_eq corpus d n pick hs, ?_, ?_⟩
  · exact keys_mapValue
      (fun p => ((samples.count p : ℕ) : ℚ) / (samples.length : ℚ)) corpus
  · intro p hp hnotin
    rw [lookupKey_mapValue
      (fun p => ((samples.count p : ℕ) : ℚ) / (samples.length : ℚ)) corpus hp]
    rw [List.count_eq_zero.mpr hnotin]
    norm_num

theorem sample_pagerank_complete_keys_witness :
    ∃ samples dist,
      sampleRecord [(("a" : Page), [("b" : Page)]), (("b" : Page), [])]
        (17/20) 2 (fun _ => 0) = Except.ok samples ∧
      sample_pagerank [(("a" : Page), [("b" : Page)]), (("b" : Page), [])]
        (17/20) 2 (fun _ => 0) = Except.ok dist ∧
      dist.map Prod.fst = keys [(("a" : Page), [("b" : Page)]), (("b" : Page), [])] ∧
      ∀ p ∈ keys [(("a" : Page), [("b" : Page)]), (("b" : Page), [])],
        p ∉ samples → lookupKey p dist = some 0 :=
  sample_pagerank_complete_keys
    [(("a" : Page), [("b" : Page)]), (("b" : Page), [])] (17/20) 2 (fun _ => 0)
    (by decide)

theorem page_ab : (("a" : Page) = ("b" : Page)) ↔ False := by
  simp +decide

theorem page_ba : (("b" : Page) = ("a" : Page)) ↔ False := by
  simp +decide

theorem page_ac : (("a" : Page) = ("c" : Page)) ↔ False := by
  simp +decide

theorem page_ca : (("c" : Page) = ("a" : Page)) ↔ False := by
  simp +decide

theorem page_bc : (("b" : Page) = ("c" : Page)) ↔ False := by
  simp +decide

theorem page_cb : (("c" : Page) = ("b" : Page)) ↔ False := by
  simp +decide

/-- C7: the code does not fail fast with a descriptive configuration error on
an empty graph. Evaluating both estimators at the empty corpus: the Sampling
Estimator raises IndexError from random.choice over the empty key list, and
the Iterative Estimator raises ZeroDivisionError at algConst = (1 - d) / n
with n = 0 — unguarded crashes, with no configuration check before them. -/
theorem empty_graph_unguarded_crash :
    sample_pagerank [] (17/20) 5 (fun _ => 0) = Except.error Err.indexError ∧
    iterate_pagerank 5 [] (17/20) = Except.error Err.zeroDivisionError := by
  constructor
  · norm_num [sample_pagerank, sampleRecord, pyChoice, keys,
      bind, Except.bind, pure, Except.pure]
  · norm_num [iterate_pagerank, pyDiv, bind, Except.bind, pure, Except.pure]

/-- C8: the code does not reject a sample count below 1. Evaluating
sample_pagerank at n = 0 and at n = -3 on a one-page graph: range(n) is
empty, no validation runs, and the call returns the rank vector built from
the single initial visit instead of an invalid-parameter error. -/
theorem sample_pagerank_accepts_nonpositive_count :
    sample_pagerank [(("a" : Page), [])] (17/20) 0 (fun _ => 0)
      = Except.ok [(("a" : Page), 1)] ∧
    sample_pagerank [(("a" : Page), [])] (17/20) (-3) (fun _ => 0)
      = Except.ok [(("a" : Page), 1)] := by
  constructor <;>
    norm_num [sample_pagerank, sampleRecord, walkSteps, pyChoice, keys,
      bind, Except.bind, pure, Except.pure, List.count_cons, List.count_nil]

/-- C1: the code mutates the Graph passed to the Iterative Estimator instead
of building a separate Effective Outbound View. Evaluating iterate_pagerank
at the one-page graph in which a is dangling: the call returns, and the
corpus as seen by the caller afterwards maps a to the full key list, not to
its original empty outbound set. -/
theorem iterate_pagerank_mutates_graph :
    iterate_pagerank 5 [(("a" : Page), [])] (17/20)
      = Except.ok (some ([(("a" : Page), 1)], [(("a" : Page), [("a" : Page)])])) ∧
    ([(("a" : Page), [("a" : Page)])] : Graph) ≠ [(("a" : Page), [])] := by
  constructor
  · norm_num [iterate_pagerank, iterLoop, passLoop, innerLoop, maxChange,
      setRank, setEntry, keys, lookupKey, pyDiv, List.foldlM, List.foldl,
      bind, Except.bind, pure, Except.pure]
  · simp

/-- C2: the convergence pass of the code does not read only the previous
vector. Evaluating one pass at the graph a to b, b to a, c to a with damping
17/20 from the uniform vector: the code assigns page b the rank 689/1200,
computed from the rank of a already updated in the same pass, while the
simultaneous-update formula of the specification assigns b the rank 1/3. -/
theorem iterate_pass_reads_updated_ranks :
    (passLoop [("a"), ("b"), ("c")] (17/20) (1/20) [("a"), ("b"), ("c")]
        [(("a" : Page), [("b" : Page)]), (("b" : Page), [("a" : Page)]),
          (("c" : Page), [("a" : Page)])]
        [(("a" : Page), 1/3), (("b" : Page), 1/3), (("c" : Page), 1/3)]).map
          (fun res => lookupKey ("b" : Page) res.2)
      = Except.ok (some (689/1200)) ∧
    lookupKey ("b" : Page)
        (specIterStep
          [(("a" : Page), [("b" : Page)]), (("b" : Page), [("a" : Page)]),
            (("c" : Page), [("a" : Page)])]
          (17/20)
          [(("a" : Page), 1/3), (("b" : Page), 1/3), (("c" : Page), 1/3)])
      = some (1/3) ∧
    (689/1200 : ℚ) ≠ 1/3 := by
  refine ⟨?_, ?_, by norm_num⟩
  · norm_num [passLoop, innerLoop, setRank, setEntry, lookupKey, pyDiv,
      page_ab, page_ba, page_ac, page_ca, page_bc, page_cb,
      List.foldlM, List.foldl, bind, Except.bind, pure, Except.pure, Except.map]
  · norm_num [specIterStep, specEffectiveOut, keys, lookupKey,
      page_ab, page_ba, page_ac, page_ca, page_bc, page_cb]

/-- C3: evaluation of the code at a concrete input, supporting the finding
that the convergence loop of the source is while True with a single exit,
the test max_change < 0.001 after a pass: the call returns a bare rank
dictionary carrying no convergence indicator, and no iteration counter or
cap exists anywhere in the loop state. -/
theorem iterate_pagerank_epsilon_only_exit :
    iterate_pagerank 2
        [(("a" : Page), [("b" : Page)]), (("b" : Page), [("a" : Page)])] (17/20)
      = Except.ok (some ([(("a" : Page), 1/2), (("b" : Page), 1/2)],
          [(("a" : Page), [("b" : Page)]), (("b" : Page), [("a" : Page)])])) := by
  norm_num [iterate_pagerank, iterLoop, passLoop, innerLoop, maxChange,
    setRank, setEntry, keys, lookupKey, pyDiv, page_ab, page_ba,
    List.foldlM, List.foldl, bind, Except.bind, pure, Except.pure]

end PageRank
